import Mathlib

/-!
Verification of `packedintarray.py`: a view over a mutable byte buffer as a
dense sequence of packed fixed-bitwidth unsigned integers, with random-access
read (`__getitem__` with an integer), in-place write (`__setitem__`), and
sub-range slicing (`__getitem__` with a slice), under little- or big-endian
packing.

The embedding below translates the Python source directly:
* a `bytearray` becomes a `List Nat` of values `< 256`;
* Python sequence slicing `bs[s:e]` (which clamps) becomes `pyslice`;
* Python bytearray splice assignment `bs[s:e] = d` (which can change the
  length of the bytearray) becomes `splice`;
* `int.from_bytes` / `int.to_bytes` become `fromBytes` / `toBytes`;
* `x & ~m` on unbounded nonnegative ints becomes `andNot`;
* `__setitem__` returns `Option` because `data.to_bytes(end - start, ...)`
  raises `OverflowError` when `data` does not fit in `end - start` bytes;
* `__init__`'s `assert` statements and the possible `ZeroDivisionError`
  become an `Except PyError` result.
-/

namespace PackedInt

/-- Endianness tag; after constructor validation the tag is one of these two. -/
inductive Endian where
  | little
  | big
deriving DecidableEq

/-- Value of `int.from_bytes(bs, "little")`: first byte is least significant. -/
def bytesToNatLE : List Nat → Nat
  | [] => 0
  | b :: bs => b + 256 * bytesToNatLE bs

/-- Value of `int.from_bytes(bs, "big")`: first byte is most significant. -/
def bytesToNatBE (bs : List Nat) : Nat :=
  bs.foldl (fun acc b => 256 * acc + b) 0

/-- Value of `int.from_bytes(bs, endian)`. -/
def fromBytes : Endian → List Nat → Nat
  | .little, bs => bytesToNatLE bs
  | .big, bs => bytesToNatBE bs

/-- The `n` little-endian bytes of `x`, that is `x.to_bytes(n, "little")`, for
`x < 256 ^ n` (Python raises `OverflowError` otherwise; the caller checks). -/
def toBytesLE : Nat → Nat → List Nat
  | 0, _ => []
  | n + 1, x => x % 256 :: toBytesLE n (x / 256)

/-- Bytes of `x.to_bytes(n, endian)` for `x < 256 ^ n`. -/
def toBytes : Endian → Nat → Nat → List Nat
  | .little, n, x => toBytesLE n x
  | .big, n, x => (toBytesLE n x).reverse

/-- Python sequence read-slicing `bs[s:e]` for `0 ≤ s ≤ e`: both bounds clamp
to the length, and the result is a fresh copy. -/
def pyslice (bs : List Nat) (s e : Nat) : List Nat :=
  (bs.drop s).take (e - s)

/-- Python bytearray splice assignment `bs[s:e] = d` for `0 ≤ s ≤ e`: the
(clamped) range `[s, e)` is replaced by `d`, growing or shrinking the
bytearray when `d`'s length differs from the range's. -/
def splice (bs : List Nat) (s e : Nat) (d : List Nat) : List Nat :=
  bs.take s ++ d ++ bs.drop e

/-- Python expression `x & ~m` for unbounded nonnegative ints: clear in `x` the bits set
in `m`.  (`x ^^^ (x &&& m)` has exactly the bits of `x` outside `m`.) -/
def andNot (x m : Nat) : Nat := x ^^^ (x &&& m)

/-- The state of a `PackedIntArray` object: the fields assigned in
`__init__`.  `value_mask` and `get_shift` are derived from `bitwidth` and
`endian` and are modelled as functions below. -/
structure PackedIntArray where
  bitwidth : Nat
  storage : List Nat
  length : Nat
  bitoffset : Nat
  endian : Endian
deriving DecidableEq

namespace PackedIntArray

/-- Derived field `self.value_mask = (1 << bitwidth) - 1`. -/
def value_mask (a : PackedIntArray) : Nat := (1 <<< a.bitwidth) - 1

/-- Method `self.get_shift`, dispatched on the endian tag:
`_get_shift_big(l, r) = 8 - r`; `_get_shift_little(l, r) = l`. -/
def get_shift (a : PackedIntArray) (bitoffset_left bitoffset_right : Nat) : Nat :=
  match a.endian with
  | .big => 8 - bitoffset_right
  | .little => bitoffset_left

/-- Method `get_range_bitoffsets(index, count)`:
`bits = index*bitwidth + bitoffset`; `start, bitoffset_left = divmod(bits, 8)`;
`end, bitoffset_right = divmod(bits + bitwidth*count + 8, 8)`. -/
def get_range_bitoffsets (a : PackedIntArray) (index count : Nat) :
    Nat × Nat × Nat × Nat :=
  let bits := index * a.bitwidth + a.bitoffset
  (bits / 8, (bits + a.bitwidth * count + 8) / 8,
   bits % 8, (bits + a.bitwidth * count + 8) % 8)

/-- Method `__getitem__` with an integer index:
`(int.from_bytes(storage[start:end], endian) >> shift) & value_mask`. -/
def get (a : PackedIntArray) (index : Nat) : Nat :=
  match a.get_range_bitoffsets index 1 with
  | (start, stop, bol, bor) =>
    (fromBytes a.endian (pyslice a.storage start stop) >>> a.get_shift bol bor) &&&
      a.value_mask

/-- Method `__setitem__`: read-modify-write of the byte range `[start, end)`.
`data = (int.from_bytes(storage[start:end], endian) & ~(value_mask << shift))
        | (value << shift)`; then `storage[start:end] = data.to_bytes(end -
start, endian)`, which raises `OverflowError` (modelled as `none`) when
`data ≥ 256 ^ (end - start)`. -/
def set (a : PackedIntArray) (index value : Nat) : Option PackedIntArray :=
  match a.get_range_bitoffsets index 1 with
  | (start, stop, bol, bor) =>
    let shift := a.get_shift bol bor
    let data :=
      andNot (fromBytes a.endian (pyslice a.storage start stop))
          (a.value_mask <<< shift) |||
        (value <<< shift)
    if data < 256 ^ (stop - start) then
      some { a with storage := splice a.storage start stop (toBytes a.endian (stop - start) data) }
    else none

/-- Method `__getitem__` with a slice `a[start:stop]` (unit step, nonnegative
bounds): `slice.indices(len(self))` clamps both bounds to the length; the new
view is built over `storage[byte_start:byte_end]` — for a bytearray this byte
slice is a fresh copy — with `bitoffset` set to the computed shift. -/
def slicev (a : PackedIntArray) (start stop : Nat) : PackedIntArray :=
  let s := min start a.length
  let e := min stop a.length
  let count := e - s
  match a.get_range_bitoffsets s count with
  | (bstart, bstop, bol, bor) =>
    { bitwidth := a.bitwidth
      storage := pyslice a.storage bstart bstop
      length := count
      bitoffset := a.get_shift bol bor
      endian := a.endian }

end PackedIntArray

/-- The `storage` parameter of `__init__`: `None`, an `int`, or a buffer. -/
inductive StorageArg where
  | nothing
  | intArg (n : Nat)
  | bufArg (bs : List Nat)
deriving DecidableEq

/-- Errors `__init__` can raise: a failed `assert`, or the
`ZeroDivisionError` from `// bitwidth` when `bitwidth == 0` and the length
must be derived from a buffer. -/
inductive PyError where
  | assertionError
  | zeroDivisionError
deriving DecidableEq

/-- Constructor `__init__(bitwidth, storage, length, bitoffset, endian)`:
asserts `endian in ["little", "big"]` and
`storage is not None or length is not None`; an `int` storage argument
becomes the length; a `None` storage becomes a fresh zeroed bytearray of
`(length * bitwidth - 1) // 8 + 1` bytes (Python floor division, so 0 bytes
when `length * bitwidth == 0`); a `None` length is derived as
`(len(storage) * 8 - bitoffset) // bitwidth`. -/
def pyInit (bitwidth : Nat) (storage : StorageArg) (length : Option Nat)
    (bitoffset : Nat) (endian : String) : Except PyError PackedIntArray :=
  if ¬ (endian = "little" ∨ endian = "big") then .error .assertionError
  else if storage = StorageArg.nothing ∧ length = none then .error .assertionError
  else
    let e : Endian := if endian = "little" then .little else .big
    -- `type(storage) is int` overwrites `length` with the int and drops it
    match storage, (match storage with | .intArg n => some n | _ => length) with
    | .intArg _, some len
    | .nothing, some len =>
        .ok { bitwidth := bitwidth
              storage := List.replicate (((len * bitwidth : Int) - 1).fdiv 8 + 1).toNat 0
              length := len, bitoffset := bitoffset, endian := e }
    | .intArg _, none
    | .nothing, none =>
        -- unreachable: an int storage always yields a length, and
        -- `nothing, none` is rejected by the second assert above
        .error .assertionError
    | .bufArg bs, some len =>
        .ok { bitwidth := bitwidth, storage := bs, length := len
              bitoffset := bitoffset, endian := e }
    | .bufArg bs, none =>
        if bitwidth = 0 then .error .zeroDivisionError
        else
          .ok { bitwidth := bitwidth, storage := bs
                length := (((8 * bs.length : Int) - bitoffset).fdiv bitwidth).toNat
                bitoffset := bitoffset, endian := e }

/-- All entries of a byte list are actual byte values. -/
def IsBytes (bs : List Nat) : Prop := ∀ b ∈ bs, b < 256

instance (bs : List Nat) : Decidable (IsBytes bs) :=
  inferInstanceAs (Decidable (∀ b ∈ bs, b < 256))

/-- Following the spec's packing convention for little endian: element `i`
occupies bit positions `[i*w + off, i*w + off + w)` counting from the
least-significant bit of the whole buffer read as a little-endian integer. -/
def packedBitsLE (a : PackedIntArray) (i : Nat) : Nat :=
  (bytesToNatLE a.storage >>> (i * a.bitwidth + a.bitoffset)) &&& a.value_mask

/-- Following the spec's packing convention for big endian: element `i`
occupies bit positions `[i*w + off, i*w + off + w)` counting from the
most-significant end of the buffer read as a big-endian integer. -/
def packedBitsBE (a : PackedIntArray) (i : Nat) : Nat :=
  (bytesToNatBE a.storage >>>
      (8 * a.storage.length - (i * a.bitwidth + a.bitoffset + a.bitwidth))) &&&
    a.value_mask

/-- Start of the byte range `__setitem__` touches for element `index`. -/
def byteRangeStart (a : PackedIntArray) (index : Nat) : Nat :=
  (index * a.bitwidth + a.bitoffset) / 8

/-- End of the byte range `__setitem__` touches for element `index` (one byte
of headroom included, from the `+ 8` in `get_range_bitoffsets`). -/
def byteRangeStop (a : PackedIntArray) (index : Nat) : Nat :=
  (index * a.bitwidth + a.bitoffset + a.bitwidth + 8) / 8

/-- The shift used by element access at index `i` (count 1): abbreviation for
the `get_shift` call both `__getitem__` and `__setitem__` perform. -/
def elemShift (a : PackedIntArray) (i : Nat) : Nat :=
  a.get_shift ((i * a.bitwidth + a.bitoffset) % 8)
    ((i * a.bitwidth + a.bitoffset + a.bitwidth + 8) % 8)

/-- The read-modify-write integer `data` computed inside `__setitem__`:
abbreviation for the corresponding subterm of `set`. -/
def setData (a : PackedIntArray) (i v : Nat) : Nat :=
  andNot (fromBytes a.endian (pyslice a.storage (byteRangeStart a i) (byteRangeStop a i)))
      (a.value_mask <<< elemShift a i) |||
    v <<< elemShift a i

/-- The array state after a successful `set`: the storage spliced over the
element's byte range with the written-back bytes of `data`. -/
def setResult (a : PackedIntArray) (i v : Nat) : PackedIntArray :=
  { a with
    storage :=
      splice a.storage (byteRangeStart a i) (byteRangeStop a i)
        (toBytes a.endian (byteRangeStop a i - byteRangeStart a i) (setData a i v)) }

/-- The observable of the Python program `sub = arr[s:e]; sub[i] = v;
arr[s + i]`: on a bytearray, `arr[s:e]` copies the byte range, so the parent
`arr` is untouched by the write through `sub`; `none` models the write
raising. -/
def sliceSetParentGet (a : PackedIntArray) (s e i v : Nat) : Option Nat :=
  ((a.slicev s e).set i v).map fun _ => a.get (s + i)

/-! ### Arithmetic facts about the byte-level primitives -/

theorem bytesToNatLE_append (xs ys : List Nat) :
    bytesToNatLE (xs ++ ys) = bytesToNatLE xs + 256 ^ xs.length * bytesToNatLE ys := by
  induction xs with
  | nil => simp [bytesToNatLE]
  | cons b bs ih =>
    simp only [List.cons_append, List.append_eq, bytesToNatLE, ih, List.length_cons, pow_succ]
    ring

theorem bytesToNatLE_lt (xs : List Nat) (h : IsBytes xs) :
    bytesToNatLE xs < 256 ^ xs.length := by
  induction xs with
  | nil => simp [bytesToNatLE]
  | cons b bs ih =>
    have hb : b < 256 := h b (List.mem_cons_self b bs)
    have hL : bytesToNatLE bs < 256 ^ bs.length :=
      ih fun x hx => h x (List.mem_cons_of_mem b hx)
    have h2 : 256 * (bytesToNatLE bs + 1) ≤ 256 * 256 ^ bs.length :=
      Nat.mul_le_mul le_rfl hL
    simp only [bytesToNatLE, List.length_cons, pow_succ]
    omega

theorem bytesToNatLE_take_add (xs : List Nat) (n : Nat) :
    bytesToNatLE xs =
      bytesToNatLE (xs.take n) + 256 ^ (xs.take n).length * bytesToNatLE (xs.drop n) := by
  conv_lhs => rw [← List.take_append_drop n xs]
  rw [bytesToNatLE_append]

theorem bytesToNatLE_take (xs : List Nat) (n : Nat) (h : IsBytes xs) :
    bytesToNatLE (xs.take n) = bytesToNatLE xs % 256 ^ n := by
  rcases le_or_lt n xs.length with hn | hn
  · have hlen : (xs.take n).length = n := by simp [hn]
    have hlt : bytesToNatLE (xs.take n) < 256 ^ n := by
      have := bytesToNatLE_lt (xs.take n) fun b hb => h b (List.mem_of_mem_take hb)
      rwa [hlen] at this
    conv_rhs => rw [bytesToNatLE_take_add xs n]
    rw [hlen, Nat.add_mul_mod_self_left, Nat.mod_eq_of_lt hlt]
  · rw [List.take_of_length_le (le_of_lt hn), Nat.mod_eq_of_lt]
    exact lt_of_lt_of_le (bytesToNatLE_lt xs h) (Nat.pow_le_pow_right (by omega) (le_of_lt hn))

theorem bytesToNatLE_drop (xs : List Nat) (n : Nat) (h : IsBytes xs) :
    bytesToNatLE (xs.drop n) = bytesToNatLE xs / 256 ^ n := by
  rcases le_or_lt n xs.length with hn | hn
  · have hlen : (xs.take n).length = n := by simp [hn]
    have hlt : bytesToNatLE (xs.take n) < 256 ^ n := by
      have := bytesToNatLE_lt (xs.take n) fun b hb => h b (List.mem_of_mem_take hb)
      rwa [hlen] at this
    conv_rhs => rw [bytesToNatLE_take_add xs n]
    rw [hlen, Nat.add_mul_div_left _ _ (Nat.pos_pow_of_pos n (by omega)),
      Nat.div_eq_of_lt hlt, Nat.zero_add]
  · rw [List.drop_of_length_le (le_of_lt hn)]
    have : bytesToNatLE xs < 256 ^ n :=
      lt_of_lt_of_le (bytesToNatLE_lt xs h) (Nat.pow_le_pow_right (by omega) (le_of_lt hn))
    simp [bytesToNatLE, Nat.div_eq_of_lt this]

theorem bytesToNatLE_pyslice (xs : List Nat) (s e : Nat) (h : IsBytes xs) :
    bytesToNatLE (pyslice xs s e) = bytesToNatLE xs / 256 ^ s % 256 ^ (e - s) := by
  unfold pyslice
  rw [bytesToNatLE_take _ _ fun b hb => h b (List.mem_of_mem_drop hb),
    bytesToNatLE_drop _ _ h]

theorem bytesToNatBE_go (bs : List Nat) (acc : Nat) :
    bs.foldl (fun acc b => 256 * acc + b) acc =
      acc * 256 ^ bs.length + bytesToNatLE bs.reverse := by
  induction bs generalizing acc with
  | nil => simp [bytesToNatLE]
  | cons b t ih =>
    simp only [List.foldl_cons, List.reverse_cons, ih, bytesToNatLE_append,
      List.length_reverse, List.length_cons, bytesToNatLE]
    ring

theorem bytesToNatBE_eq_reverse (bs : List Nat) :
    bytesToNatBE bs = bytesToNatLE bs.reverse := by
  simpa using bytesToNatBE_go bs 0

theorem bytesToNatBE_lt (xs : List Nat) (h : IsBytes xs) :
    bytesToNatBE xs < 256 ^ xs.length := by
  rw [bytesToNatBE_eq_reverse]
  have := bytesToNatLE_lt xs.reverse fun b hb => h b (List.mem_reverse.mp hb)
  simpa using this

theorem fromBytes_lt (e : Endian) (xs : List Nat) (h : IsBytes xs) :
    fromBytes e xs < 256 ^ xs.length := by
  cases e with
  | little => exact bytesToNatLE_lt xs h
  | big => exact bytesToNatBE_lt xs h

theorem length_toBytesLE (n x : Nat) : (toBytesLE n x).length = n := by
  induction n generalizing x with
  | zero => rfl
  | succ k ih => simp [toBytesLE, ih]

theorem length_toBytes (e : Endian) (n x : Nat) : (toBytes e n x).length = n := by
  cases e <;> simp [toBytes, length_toBytesLE]

theorem bytesToNatLE_toBytesLE (n x : Nat) :
    bytesToNatLE (toBytesLE n x) = x % 256 ^ n := by
  induction n generalizing x with
  | zero => simp [toBytesLE, bytesToNatLE, Nat.mod_one]
  | succ k ih =>
    simp only [toBytesLE, bytesToNatLE, ih]
    rw [pow_succ', Nat.mod_mul]

theorem fromBytes_toBytes (e : Endian) (n x : Nat) (h : x < 256 ^ n) :
    fromBytes e (toBytes e n x) = x := by
  cases e with
  | little => simp [fromBytes, toBytes, bytesToNatLE_toBytesLE, Nat.mod_eq_of_lt h]
  | big =>
    simp [fromBytes, toBytes, bytesToNatBE_eq_reverse, List.reverse_reverse,
      bytesToNatLE_toBytesLE, Nat.mod_eq_of_lt h]

theorem extract_aux (B r M w : Nat) (hrM : r ≤ M) (hw : w ≤ M - r) :
    B % 2 ^ M / 2 ^ r % 2 ^ w = B / 2 ^ r % 2 ^ w := by
  have h1 : (2 : Nat) ^ M = 2 ^ r * 2 ^ (M - r) := by
    rw [← pow_add]
    congr 1
    omega
  rw [h1, Nat.mod_mul_right_div_self, Nat.mod_mod_of_dvd _ (pow_dvd_pow 2 hw)]

theorem pow256_eq (k : Nat) : (256 : Nat) ^ k = 2 ^ (8 * k) := by
  rw [show (256 : Nat) = 2 ^ 8 by norm_num, ← pow_mul]

theorem shiftLeft_lt_pow (v w shift n : Nat) (hv : v < 2 ^ w) (hsh : w + shift ≤ n) :
    v <<< shift < 2 ^ n := by
  rw [Nat.shiftLeft_eq]
  have h1 : v * 2 ^ shift < 2 ^ w * 2 ^ shift :=
    Nat.mul_lt_mul_of_pos_right hv (Nat.pos_pow_of_pos _ (by omega))
  have h2 : (2 : Nat) ^ w * 2 ^ shift ≤ 2 ^ n := by
    rw [← pow_add]
    exact Nat.pow_le_pow_right (by omega) hsh
  omega

theorem andNot_lt (x m n : Nat) (hx : x < 2 ^ n) : andNot x m < 2 ^ n :=
  Nat.xor_lt_two_pow hx (lt_of_le_of_lt Nat.and_le_left hx)

theorem data_lt (old m v shift n w : Nat) (hold : old < 2 ^ n) (hv : v < 2 ^ w)
    (hsh : w + shift ≤ n) : (andNot old m ||| v <<< shift) < 2 ^ n :=
  Nat.or_lt_two_pow (andNot_lt old m n hold) (shiftLeft_lt_pow v w shift n hv hsh)

theorem data_shiftRight_and_mask (old v w shift : Nat) :
    (andNot old ((2 ^ w - 1) <<< shift) ||| v <<< shift) >>> shift &&& (2 ^ w - 1) =
      v &&& (2 ^ w - 1) := by
  apply Nat.eq_of_testBit_eq
  intro j
  simp only [andNot, Nat.testBit_and, Nat.testBit_or, Nat.testBit_xor, Nat.testBit_shiftRight,
    Nat.testBit_shiftLeft, Nat.testBit_two_pow_sub_one]
  have h1 : shift + j - shift = j := by omega
  have h2 : shift ≤ shift + j := Nat.le_add_right shift j
  by_cases hj : j < w <;> cases ho : old.testBit (shift + j) <;> cases hv : v.testBit j <;>
    simp [hj, ho, hv, h1, h2]

theorem pyslice_reverse (xs : List Nat) (s e : Nat) (hse : s ≤ e) (he : e ≤ xs.length) :
    (pyslice xs s e).reverse = pyslice xs.reverse (xs.length - e) (xs.length - s) := by
  unfold pyslice
  rw [List.reverse_take, List.reverse_drop, List.drop_take, List.length_drop]
  have h1 : xs.length - s - (e - s) = xs.length - e := by omega
  rw [h1]

/-! ### Facts about splice assignment -/

theorem length_splice (xs d : List Nat) (s e : Nat) (hs : s ≤ xs.length) (hse : s ≤ e)
    (hd : d.length = e - s) : (splice xs s e d).length = max xs.length e := by
  simp only [splice, List.length_append, List.length_take, List.length_drop, hd]
  omega

theorem pyslice_splice (xs d : List Nat) (s e : Nat) (hs : s ≤ xs.length) (hse : s ≤ e)
    (hd : d.length = e - s) : pyslice (splice xs s e d) s e = d := by
  unfold pyslice splice
  rw [List.append_assoc,
    List.drop_left' (by simp only [List.length_take]; omega : (xs.take s).length = s),
    List.take_left' hd]

theorem splice_getElem?_left (xs d : List Nat) (s e j : Nat) (hj : j < s) (hs : s ≤ xs.length) :
    (splice xs s e d)[j]? = xs[j]? := by
  unfold splice
  rw [List.getElem?_append_left
      (by simp only [List.length_append, List.length_take]; omega),
    List.getElem?_append_left (by simp only [List.length_take]; omega),
    List.getElem?_take_of_lt hj]

theorem splice_getElem?_right (xs d : List Nat) (s e j : Nat) (hse : s ≤ e)
    (hs : s ≤ xs.length) (hd : d.length = e - s) (hj : e ≤ j) :
    (splice xs s e d)[j]? = xs[j]? := by
  unfold splice
  rw [List.getElem?_append_right
      (by simp only [List.length_append, List.length_take, hd]; omega),
    List.getElem?_drop]
  congr 1
  simp only [List.length_append, List.length_take, hd]
  omega

/-! ### Unfolded forms of get for each endianness -/

theorem get_little_eq (a : PackedIntArray) (i : Nat) (hend : a.endian = Endian.little) :
    a.get i =
      bytesToNatLE (pyslice a.storage ((i * a.bitwidth + a.bitoffset) / 8)
          ((i * a.bitwidth + a.bitoffset + a.bitwidth + 8) / 8)) >>>
        ((i * a.bitwidth + a.bitoffset) % 8) &&& (2 ^ a.bitwidth - 1) := by
  simp only [PackedIntArray.get, PackedIntArray.get_range_bitoffsets, PackedIntArray.get_shift,
    PackedIntArray.value_mask, fromBytes, hend, Nat.mul_one, Nat.one_shiftLeft]

theorem get_big_eq (a : PackedIntArray) (i : Nat) (hend : a.endian = Endian.big) :
    a.get i =
      bytesToNatBE (pyslice a.storage ((i * a.bitwidth + a.bitoffset) / 8)
          ((i * a.bitwidth + a.bitoffset + a.bitwidth + 8) / 8)) >>>
        (8 - (i * a.bitwidth + a.bitoffset + a.bitwidth + 8) % 8) &&& (2 ^ a.bitwidth - 1) := by
  simp only [PackedIntArray.get, PackedIntArray.get_range_bitoffsets, PackedIntArray.get_shift,
    PackedIntArray.value_mask, fromBytes, hend, Nat.mul_one, Nat.one_shiftLeft]

/-- Little-endian get extracts exactly the packed bits of the element, for any
storage, any index and any bitoffset (clamping a missing trailing byte is
harmless under little-endian byte order). -/
theorem get_eq_packedBitsLE (a : PackedIntArray) (i : Nat) (hB : IsBytes a.storage)
    (hend : a.endian = Endian.little) : a.get i = packedBitsLE a i := by
  rw [get_little_eq a i hend]
  unfold packedBitsLE PackedIntArray.value_mask
  rw [Nat.one_shiftLeft, bytesToNatLE_pyslice _ _ _ hB, Nat.shiftRight_eq_div_pow,
    Nat.shiftRight_eq_div_pow, Nat.and_pow_two_sub_one_eq_mod, Nat.and_pow_two_sub_one_eq_mod,
    pow256_eq, pow256_eq]
  rw [extract_aux _ _ _ _ (by omega) (by omega), Nat.div_div_eq_div_mul, ← pow_add]
  have h8 : 8 * ((i * a.bitwidth + a.bitoffset) / 8) + (i * a.bitwidth + a.bitoffset) % 8 =
      i * a.bitwidth + a.bitoffset := by omega
  rw [h8]

/-- Big-endian get extracts exactly the packed bits of the element provided
the computed byte range stays inside the storage (no clamping). -/
theorem get_eq_packedBitsBE (a : PackedIntArray) (i : Nat) (hB : IsBytes a.storage)
    (hend : a.endian = Endian.big)
    (hstop : (i * a.bitwidth + a.bitoffset + a.bitwidth + 8) / 8 ≤ a.storage.length) :
    a.get i = packedBitsBE a i := by
  rw [get_big_eq a i hend]
  unfold packedBitsBE PackedIntArray.value_mask
  have hse : (i * a.bitwidth + a.bitoffset) / 8 ≤
      (i * a.bitwidth + a.bitoffset + a.bitwidth + 8) / 8 := by omega
  rw [Nat.one_shiftLeft, bytesToNatBE_eq_reverse, bytesToNatBE_eq_reverse,
    pyslice_reverse _ _ _ hse hstop,
    bytesToNatLE_pyslice _ _ _ (fun b hb => hB b (List.mem_reverse.mp hb)),
    Nat.shiftRight_eq_div_pow, Nat.shiftRight_eq_div_pow, Nat.and_pow_two_sub_one_eq_mod,
    Nat.and_pow_two_sub_one_eq_mod, pow256_eq, pow256_eq]
  rw [extract_aux _ _ _ _ (by omega) (by omega), Nat.div_div_eq_div_mul, ← pow_add]
  have h8 : 8 * (a.storage.length - (i * a.bitwidth + a.bitoffset + a.bitwidth + 8) / 8) +
      (8 - (i * a.bitwidth + a.bitoffset + a.bitwidth + 8) % 8) =
      8 * a.storage.length - (i * a.bitwidth + a.bitoffset + a.bitwidth) := by omega
  rw [h8]

/-! ### Unfolded form of set -/

theorem set_eq (a : PackedIntArray) (i v : Nat) :
    a.set i v =
      if setData a i v < 256 ^ (byteRangeStop a i - byteRangeStart a i) then
        some (setResult a i v)
      else none := by
  simp only [PackedIntArray.set, PackedIntArray.get_range_bitoffsets, setResult, setData,
    elemShift, byteRangeStart, byteRangeStop, Nat.mul_one]

theorem value_mask_eq (a : PackedIntArray) : a.value_mask = 2 ^ a.bitwidth - 1 := by
  unfold PackedIntArray.value_mask
  rw [Nat.one_shiftLeft]

theorem elemShift_width_le (a : PackedIntArray) (i : Nat) :
    a.bitwidth + elemShift a i ≤ 8 * (byteRangeStop a i - byteRangeStart a i) := by
  unfold elemShift byteRangeStart byteRangeStop
  cases ha : a.endian <;> simp only [PackedIntArray.get_shift, ha] <;> omega

theorem fromBytes_pyslice_lt (a : PackedIntArray) (i : Nat) (hB : IsBytes a.storage) :
    fromBytes a.endian (pyslice a.storage (byteRangeStart a i) (byteRangeStop a i)) <
      2 ^ (8 * (byteRangeStop a i - byteRangeStart a i)) := by
  have hsub : IsBytes (pyslice a.storage (byteRangeStart a i) (byteRangeStop a i)) :=
    fun b hb => hB b (List.mem_of_mem_drop (List.mem_of_mem_take hb))
  have hlen : (pyslice a.storage (byteRangeStart a i) (byteRangeStop a i)).length ≤
      byteRangeStop a i - byteRangeStart a i := by
    unfold pyslice
    simp only [List.length_take]
    omega
  calc fromBytes a.endian (pyslice a.storage (byteRangeStart a i) (byteRangeStop a i)) <
        256 ^ (pyslice a.storage (byteRangeStart a i) (byteRangeStop a i)).length :=
      fromBytes_lt _ _ hsub
    _ ≤ 256 ^ (byteRangeStop a i - byteRangeStart a i) :=
      Nat.pow_le_pow_right (by omega) hlen
    _ = 2 ^ (8 * (byteRangeStop a i - byteRangeStart a i)) := pow256_eq _

theorem setData_lt (a : PackedIntArray) (i v : Nat) (hB : IsBytes a.storage)
    (hv : v ≤ a.value_mask) :
    setData a i v < 256 ^ (byteRangeStop a i - byteRangeStart a i) := by
  have hv2 : v < 2 ^ a.bitwidth := by
    have hm := value_mask_eq a
    have hp : 0 < 2 ^ a.bitwidth := Nat.pos_pow_of_pos _ (by omega)
    omega
  unfold setData
  rw [pow256_eq]
  exact data_lt _ _ _ _ _ a.bitwidth (fromBytes_pyslice_lt a i hB) hv2 (elemShift_width_le a i)

/-- Function `set` never raises for values whose shifted form fits the byte range,
even when the value exceeds `value_mask`. -/
theorem setData_lt_of_fit (a : PackedIntArray) (i v : Nat) (hB : IsBytes a.storage)
    (hfit : v <<< elemShift a i < 2 ^ (8 * (byteRangeStop a i - byteRangeStart a i))) :
    setData a i v < 256 ^ (byteRangeStop a i - byteRangeStart a i) := by
  unfold setData
  rw [pow256_eq]
  exact Nat.or_lt_two_pow (andNot_lt _ _ _ (fromBytes_pyslice_lt a i hB)) hfit

theorem set_spec_of_fit (a : PackedIntArray) (i v : Nat) (hB : IsBytes a.storage)
    (hfit : v <<< elemShift a i < 2 ^ (8 * (byteRangeStop a i - byteRangeStart a i))) :
    a.set i v = some (setResult a i v) := by
  rw [set_eq, if_pos (setData_lt_of_fit a i v hB hfit)]

/-- Unfolded form of `get`, valid for either endianness: the element's byte
range read as an integer of the array's endianness, shifted by the endian
shift and masked. -/
theorem get_eq (a : PackedIntArray) (i : Nat) :
    a.get i =
      (fromBytes a.endian (pyslice a.storage (byteRangeStart a i) (byteRangeStop a i)) >>>
        elemShift a i) &&& a.value_mask := by
  simp only [PackedIntArray.get, PackedIntArray.get_range_bitoffsets, byteRangeStart,
    byteRangeStop, elemShift, Nat.mul_one]

/-- Reading the element just written: `get` at the written index reads back
exactly the bytes `set` spliced in, so the result is `value & value_mask`,
for either endianness. -/
theorem get_setResult (a : PackedIntArray) (i v : Nat)
    (hs : byteRangeStart a i ≤ a.storage.length)
    (hdata : setData a i v < 256 ^ (byteRangeStop a i - byteRangeStart a i)) :
    (setResult a i v).get i = v &&& a.value_mask := by
  have hse : byteRangeStart a i ≤ byteRangeStop a i := by
    unfold byteRangeStart byteRangeStop
    omega
  have hd : (toBytes a.endian (byteRangeStop a i - byteRangeStart a i) (setData a i v)).length =
      byteRangeStop a i - byteRangeStart a i := length_toBytes _ _ _
  rw [get_eq,
    show byteRangeStart (setResult a i v) i = byteRangeStart a i from rfl,
    show byteRangeStop (setResult a i v) i = byteRangeStop a i from rfl,
    show elemShift (setResult a i v) i = elemShift a i from rfl,
    show (setResult a i v).value_mask = a.value_mask from rfl,
    show (setResult a i v).endian = a.endian from rfl,
    show (setResult a i v).storage =
      splice a.storage (byteRangeStart a i) (byteRangeStop a i)
        (toBytes a.endian (byteRangeStop a i - byteRangeStart a i) (setData a i v)) from rfl,
    pyslice_splice _ _ _ _ hs hse hd, fromBytes_toBytes _ _ _ hdata, value_mask_eq]
  unfold setData
  rw [value_mask_eq]
  exact data_shiftRight_and_mask _ v a.bitwidth (elemShift a i)

/-- Under an in-range value, `set` succeeds, producing exactly the spliced
storage. -/
theorem set_spec (a : PackedIntArray) (i v : Nat) (hB : IsBytes a.storage)
    (hv : v ≤ a.value_mask) :
    a.set i v = some (setResult a i v) := by
  rw [set_eq, if_pos (setData_lt a i v hB hv)]

/-- The master index inequality: under the storage-covers-all-bits invariant,
a valid index's bit run ends inside the storage. -/
theorem bits_add_width_le (a : PackedIntArray) (i : Nat)
    (hinv : a.bitoffset + a.length * a.bitwidth ≤ 8 * a.storage.length)
    (hi : i < a.length) :
    i * a.bitwidth + a.bitoffset + a.bitwidth ≤ 8 * a.storage.length := by
  have h1 : (i + 1) * a.bitwidth ≤ a.length * a.bitwidth :=
    Nat.mul_le_mul (by omega) (le_refl a.bitwidth)
  have h2 : (i + 1) * a.bitwidth = i * a.bitwidth + a.bitwidth := by ring
  omega

/-! ### Claim theorems -/

/-- C1: the round-trip property fails on the code for big-endian arrays.
Evaluating the code on a fresh big-endian 3-bit array of length 8: after
`set 6 5`, `get 6` returns 5; the subsequent `set 7 1` clamps its byte range
at the end of storage, misaligns the big-endian read-modify-write and splices
displaced bytes back, after which `get 7` returns 1 but `get 6` returns 0
instead of the required unchanged 5. -/
theorem bigEndian_set_corrupts_neighbor :
    ((pyInit 3 (StorageArg.intArg 8) none 0 "big").toOption.bind fun a =>
      (a.set 6 5).map fun a1 =>
        (a1.get 6, (a1.set 7 1).map fun a2 => (a2.get 7, a2.get 6))) =
      some (5, some (1, 0)) := by decide

/-- C5: slice read equivalence fails on the code for big-endian arrays.
On the big-endian 3-bit array over bytes `[4, 0, 0]` (length 8), element 1 is
the bit run at top-relative positions 3..5, so `get 1 = 1`; but the slice
`a[1:4]` stores the big-endian shift `8 - bitoffset_right = 4` as the view's
`bitoffset` where the top-relative offset 3 would be needed, so the view's
`get 0` returns 2 instead of 1. -/
theorem bigEndian_slice_get_mismatch :
    ((pyInit 3 (StorageArg.bufArg [4, 0, 0]) none 0 "big").toOption.map fun a =>
      (a.length, a.get 1, (a.slicev 1 4).get 0)) = some (8, 1, 2) := by decide

/-- C7 counterexample: for a big-endian array whose byte range is clamped at
the end of storage (1-byte storage `[7]`, bitwidth 8, so `end = 2` exceeds
the storage), reading `storage[start:end]`, shifting by the computed shift
and masking yields 0, not the packed bits 7 of element 0. -/
theorem bigEndian_get_clamped_counterexample :
    ((pyInit 8 (StorageArg.bufArg [7]) none 0 "big").toOption.map fun a =>
      (a.get 0, packedBitsBE a 0)) = some (0, 7) := by decide

/-- C7 (amended): `get_range_bitoffsets` returns `start = bits / 8`,
`end = (bits + bitwidth*count + 8) / 8` and the two bit offsets
`bits % 8` and `(bits + bitwidth*count + 8) % 8`; the shift is
`bits % 8` under little endian and `8 - ((bits + bitwidth*count + 8) % 8)`
under big endian.  Reading `storage[start:end]` as an integer of the array's
endianness, shifting right by `shift` and masking with `value_mask` yields
exactly the packed bits of element `index` under little endian for every
array of genuine bytes; under big endian it does so provided `end` does not
exceed the storage length (Python's clamped byte slice otherwise misaligns
the big-endian read, as the counterexample shows). -/
theorem range_resolution_correct :
    (∀ (a : PackedIntArray) (index count : Nat),
        a.get_range_bitoffsets index count =
          ((index * a.bitwidth + a.bitoffset) / 8,
           (index * a.bitwidth + a.bitoffset + a.bitwidth * count + 8) / 8,
           (index * a.bitwidth + a.bitoffset) % 8,
           (index * a.bitwidth + a.bitoffset + a.bitwidth * count + 8) % 8)) ∧
    (∀ (a : PackedIntArray) (l r : Nat), a.endian = Endian.little → a.get_shift l r = l) ∧
    (∀ (a : PackedIntArray) (l r : Nat), a.endian = Endian.big → a.get_shift l r = 8 - r) ∧
    (∀ (a : PackedIntArray) (i : Nat), IsBytes a.storage → a.endian = Endian.little →
        a.get i = packedBitsLE a i) ∧
    (∀ (a : PackedIntArray) (i : Nat), IsBytes a.storage → a.endian = Endian.big →
        (i * a.bitwidth + a.bitoffset + a.bitwidth + 8) / 8 ≤ a.storage.length →
        a.get i = packedBitsBE a i) := by
  refine ⟨fun a index count => rfl, fun a l r h => ?_, fun a l r h => ?_, ?_, ?_⟩
  · simp only [PackedIntArray.get_shift, h]
  · simp only [PackedIntArray.get_shift, h]
  · exact fun a i hB h => get_eq_packedBitsLE a i hB h
  · exact fun a i hB h hstop => get_eq_packedBitsBE a i hB h hstop

/-- C7 witness: the amended theorem instantiated at the little-endian test
fixture and at a big-endian array with an unclamped range. -/
theorem range_resolution_correct_witness :
    (⟨3, [136, 198, 250], 8, 0, Endian.little⟩ : PackedIntArray).get 2 =
        packedBitsLE ⟨3, [136, 198, 250], 8, 0, Endian.little⟩ 2 ∧
      (⟨8, [7, 9], 1, 0, Endian.big⟩ : PackedIntArray).get 0 =
        packedBitsBE ⟨8, [7, 9], 1, 0, Endian.big⟩ 0 :=
  ⟨range_resolution_correct.2.2.2.1 _ 2 (by decide) rfl,
   range_resolution_correct.2.2.2.2 _ 0 (by decide) rfl (by decide)⟩

/-- C8 counterexample: a big-endian slice view can receive `bitoffset = 8`:
slicing one 8-bit element from a 2-byte big-endian array computes
`bitoffset_right = (0 + 8 + 8) % 8 = 0`, hence shift `8 - 0 = 8`, which is
stored as the view's `bitoffset`. -/
theorem slice_bitoffset_eight :
    ((⟨8, [0, 0], 2, 0, Endian.big⟩ : PackedIntArray).slicev 0 1).bitoffset = 8 := by
  decide

/-- C8 (amended): a little-endian slice view's `bitoffset` is `bits % 8 < 8`,
but a big-endian slice view's `bitoffset` is `8 - bitoffset_right`, which
lies in `[1, 8]` and reaches 8 whenever the slice's bit run plus the headroom
byte ends on a byte boundary; directly constructed arrays simply store the
caller's `bitoffset` unvalidated. -/
theorem slice_bitoffset_bounds :
    (∀ (a : PackedIntArray) (s e : Nat), a.endian = Endian.little →
        (a.slicev s e).bitoffset < 8) ∧
    (∀ (a : PackedIntArray) (s e : Nat), a.endian = Endian.big →
        1 ≤ (a.slicev s e).bitoffset ∧ (a.slicev s e).bitoffset ≤ 8) := by
  constructor
  · intro a s e hend
    simp only [PackedIntArray.slicev, PackedIntArray.get_range_bitoffsets,
      PackedIntArray.get_shift, hend]
    omega
  · intro a s e hend
    simp only [PackedIntArray.slicev, PackedIntArray.get_range_bitoffsets,
      PackedIntArray.get_shift, hend]
    omega

/-- C8 witness: the amended bounds at concrete slices. -/
theorem slice_bitoffset_bounds_witness :
    ((⟨3, [4, 0, 0], 8, 0, Endian.little⟩ : PackedIntArray).slicev 1 4).bitoffset < 8 ∧
      (1 ≤ ((⟨3, [4, 0, 0], 8, 0, Endian.big⟩ : PackedIntArray).slicev 1 4).bitoffset ∧
        ((⟨3, [4, 0, 0], 8, 0, Endian.big⟩ : PackedIntArray).slicev 1 4).bitoffset ≤ 8) :=
  ⟨slice_bitoffset_bounds.1 _ 1 4 rfl, slice_bitoffset_bounds.2 _ 1 4 rfl⟩

/-- C3 counterexample: no bounds checking anywhere.  On a 1-element 8-bit
array over `[7]`: `get 1` (index == length) returns 0 rather than signalling;
`set 1 9` succeeds, splicing `[9, 0]` past the end so the storage becomes
`[7, 9, 0]`; and `a[0:5]` silently clamps `stop` to the length, yielding a
view of length 1 rather than signalling. -/
theorem no_bounds_check :
    ((pyInit 8 (StorageArg.bufArg [7]) none 0 "little").toOption.map fun a =>
      (a.length, a.get 1, (a.set 1 9).map fun b => b.storage,
        (a.slicev 0 5).length)) = some (1, 0, some [7, 9, 0], 1) := by decide

/-- C3 (amended): `get`/`set` perform no index validation at all (they are
total functions of the index, reading a clamped byte range), and a slice
whose `stop` exceeds the length is silently clamped by `slice.indices`:
it produces exactly the view that `stop = length` produces. -/
theorem slice_clamps_stop (a : PackedIntArray) (start stop : Nat)
    (h : a.length ≤ stop) : a.slicev start stop = a.slicev start a.length := by
  simp only [PackedIntArray.slicev, Nat.min_eq_right h, Nat.min_self]

/-- C3 witness: clamping at a concrete out-of-range stop. -/
theorem slice_clamps_stop_witness :
    (⟨8, [7], 1, 0, Endian.little⟩ : PackedIntArray).slicev 0 5 =
      (⟨8, [7], 1, 0, Endian.little⟩ : PackedIntArray).slicev 0 1 :=
  slice_clamps_stop ⟨8, [7], 1, 0, Endian.little⟩ 0 5 (by decide)

/-- C2 counterexample: slicing a bytearray-backed array copies the byte
range, so a write through the slice view never reaches the parent: on a
2-element 8-bit array over `[0, 0]`, after `sub = a[0:2]; sub[0] = 5` the
view reads back 5 but the parent's `get 0` is still 0, not 5 as the claim
requires. -/
theorem slice_write_not_visible_in_parent :
    (((⟨8, [0, 0], 2, 0, Endian.little⟩ : PackedIntArray).slicev 0 2).set 0 5).map
        (fun view =>
          (view.get 0, (⟨8, [0, 0], 2, 0, Endian.little⟩ : PackedIntArray).get 0)) =
      some (5, 0) := by decide

/-- C2 (amended): the view returned by slicing holds a fresh copy of
`storage[byte_start:byte_end]` (Python bytearray slices copy), and a
successful write through the view leaves the parent untouched, so reading
the parent at `start + i` afterwards returns its old value, not the written
one. -/
theorem slice_copies_and_parent_unchanged (a : PackedIntArray) (s e i v : Nat)
    (h : ((a.slicev s e).set i v).isSome = true) :
    sliceSetParentGet a s e i v = some (a.get (s + i)) ∧
      (a.slicev s e).storage =
        pyslice a.storage ((min s a.length * a.bitwidth + a.bitoffset) / 8)
          ((min s a.length * a.bitwidth + a.bitoffset +
            a.bitwidth * (min e a.length - min s a.length) + 8) / 8) := by
  constructor
  · unfold sliceSetParentGet
    rcases hx : (a.slicev s e).set i v with _ | b
    · rw [hx] at h
      simp at h
    · simp
  · rfl

/-- C2 witness: the amended theorem at the counterexample's input. -/
theorem slice_copies_and_parent_unchanged_witness :
    sliceSetParentGet ⟨8, [0, 0], 2, 0, Endian.little⟩ 0 2 0 5 =
        some ((⟨8, [0, 0], 2, 0, Endian.little⟩ : PackedIntArray).get (0 + 0)) ∧
      ((⟨8, [0, 0], 2, 0, Endian.little⟩ : PackedIntArray).slicev 0 2).storage =
        pyslice [0, 0] ((min 0 2 * 8 + 0) / 8) ((min 0 2 * 8 + 0 + 8 * (min 2 2 - min 0 2) + 8) / 8) :=
  slice_copies_and_parent_unchanged ⟨8, [0, 0], 2, 0, Endian.little⟩ 0 2 0 5 (by decide)

/-- C9 counterexample: `__init__` does not validate `bitwidth`; constructing
with `bitwidth = 0` succeeds (the allocation size `(5*0 - 1) // 8 + 1`
evaluates to 0 under Python floor division, so the storage is empty and
`value_mask = 0`), whereas the claim requires it to signal. -/
theorem bitwidth_zero_constructs :
    pyInit 0 (StorageArg.intArg 5) none 0 "little" =
      Except.ok ⟨0, [], 5, 0, Endian.little⟩ := rfl

/-- C9 (amended): construction fails exactly when the endian tag is invalid,
when neither storage nor length is supplied, or when the length must be
derived from a buffer with `bitwidth = 0` (a `ZeroDivisionError`, not a
validation); in particular `bitwidth = 0` with an integer or explicit length
constructs successfully. -/
theorem pyInit_ok_iff (w : Nat) (sarg : StorageArg) (len : Option Nat) (off : Nat)
    (e : String) :
    (∃ a, pyInit w sarg len off e = Except.ok a) ↔
      ((e = "little" ∨ e = "big") ∧
        ¬(sarg = StorageArg.nothing ∧ len = none) ∧
        (∀ bs, sarg = StorageArg.bufArg bs → len = none → w ≠ 0)) := by
  unfold pyInit
  by_cases he : e = "little" ∨ e = "big"
  · rw [if_neg (not_not_intro he)]
    by_cases h2 : sarg = StorageArg.nothing ∧ len = none
    · rw [if_pos h2]
      simp [h2]
    · rw [if_neg h2]
      cases sarg with
      | nothing =>
        cases len with
        | none => exact absurd ⟨rfl, rfl⟩ h2
        | some L => simp [he]
      | intArg n => simp [he]
      | bufArg bs =>
        cases len with
        | some L => simp [he]
        | none =>
          by_cases hw : w = 0
          · simp [he, hw]
          · simp [he, hw]
  · rw [if_pos he]
    simp [he]

/-- C9 witness: the characterization applied at a concrete successful
construction. -/
theorem pyInit_ok_iff_witness :
    ∃ a, pyInit 8 (StorageArg.intArg 2) none 0 "little" = Except.ok a :=
  (pyInit_ok_iff 8 (StorageArg.intArg 2) none 0 "little").mpr
    ⟨Or.inl rfl, by simp, fun bs h => by cases h⟩

theorem alloc_size_eq (m : Nat) : (((m : Int) - 1).fdiv 8 + 1).toNat = (m + 7) / 8 := by
  rw [Int.fdiv_eq_ediv _ (by norm_num)]
  omega

/-- C10: an integer storage argument is taken as the element count,
overriding any explicitly supplied `length`; a fresh zero-filled buffer of
`ceil(n*bitwidth/8)` bytes is allocated and the resulting array has length
`n` regardless of the `length` parameter. -/
theorem intArg_overrides_length (w n : Nat) (len : Option Nat) (off : Nat) (e : String)
    (he : e = "little" ∨ e = "big") :
    pyInit w (StorageArg.intArg n) len off e =
      Except.ok { bitwidth := w, storage := List.replicate ((n * w + 7) / 8) 0,
                  length := n, bitoffset := off,
                  endian := if e = "little" then Endian.little else Endian.big } := by
  unfold pyInit
  rw [if_neg (not_not_intro he), if_neg (by simp)]
  have hcast : (n : Int) * (w : Int) = ((n * w : Nat) : Int) := by push_cast; ring
  simp only [hcast, alloc_size_eq]

/-- C10 witness: the precedence theorem at a concrete input where the
explicit `length` argument (99) is ignored in favor of the integer storage
argument (2). -/
theorem intArg_overrides_length_witness :
    pyInit 8 (StorageArg.intArg 2) (some 99) 0 "little" =
      Except.ok { bitwidth := 8, storage := List.replicate 2 0, length := 2,
                  bitoffset := 0, endian := Endian.little } := by
  have h := intArg_overrides_length 8 2 (some 99) 0 "little" (Or.inl rfl)
  simpa using h

/-- C4 counterexample: `set` does not validate the value.  On a 2-element
3-bit little-endian array (1 zero byte of storage), `set 0 15` with
`15 > value_mask = 7` succeeds (no signal), modifies the backing buffer to
`[15]`, reads back truncated (`get 0 = 7`), and corrupts the adjacent
element: `get 1` becomes 1. -/
theorem overwide_value_not_rejected :
    ((pyInit 3 (StorageArg.intArg 2) none 0 "little").toOption.bind fun a =>
      (a.set 0 15).map fun b => (b.storage, b.get 0, b.get 1)) =
      some ([15], 7, 1) := by decide

/-- C4 (amended): `set` performs no value validation, for either
endianness: an over-wide value whose shifted form still fits the byte range
is written without any signal, the backing buffer is modified, and reading
the element back returns `value & value_mask` — silent truncation, with the
excess bits landing in the surrounding bits of the buffer (an over-wide
value whose shifted form does not fit raises Python's OverflowError from
`int.to_bytes`, which is still not the claimed ValueOutOfRange). -/
theorem set_overwide_truncates (a : PackedIntArray) (i v : Nat)
    (hB : IsBytes a.storage)
    (hinv : a.bitoffset + a.length * a.bitwidth ≤ 8 * a.storage.length)
    (hi : i < a.length)
    (hfit : v <<< elemShift a i < 2 ^ (8 * (byteRangeStop a i - byteRangeStart a i))) :
    ∃ b, a.set i v = some b ∧ b.get i = v &&& a.value_mask := by
  have hbw := bits_add_width_le a i hinv hi
  have hs : byteRangeStart a i ≤ a.storage.length := by
    unfold byteRangeStart
    omega
  exact ⟨setResult a i v, set_spec_of_fit a i v hB hfit,
    get_setResult a i v hs (setData_lt_of_fit a i v hB hfit)⟩

/-- C4 witness: the amended truncation behavior at concrete inputs of both
endiannesses: setting the over-wide 15 into a 3-bit element succeeds and
reads back 15 & 7 = 7. -/
theorem set_overwide_truncates_witness :
    (∃ b, (⟨3, [0], 2, 0, Endian.little⟩ : PackedIntArray).set 0 15 = some b ∧
      b.get 0 = 15 &&& (⟨3, [0], 2, 0, Endian.little⟩ : PackedIntArray).value_mask) ∧
    (∃ b, (⟨3, [0], 2, 0, Endian.big⟩ : PackedIntArray).set 1 15 = some b ∧
      b.get 1 = 15 &&& (⟨3, [0], 2, 0, Endian.big⟩ : PackedIntArray).value_mask) :=
  ⟨set_overwide_truncates ⟨3, [0], 2, 0, Endian.little⟩ 0 15 (by decide) (by decide)
      (by decide) (by decide),
    set_overwide_truncates ⟨3, [0], 2, 0, Endian.big⟩ 1 15 (by decide) (by decide)
      (by decide) (by decide)⟩

/-- C6 counterexample: `set` can change the number of bytes in the backing
storage.  On a 1-element 8-bit little-endian array (1 byte of storage), the
computed byte range is `[0, 2)`, so the bytearray splice grows the storage
from 1 byte to 2. -/
theorem set_grows_storage :
    ((pyInit 8 (StorageArg.intArg 1) none 0 "little").toOption.bind fun a =>
      (a.set 0 5).map fun b => (a.storage.length, b.storage.length)) =
      some (1, 2) := by decide

/-- C6 (amended): for an in-range value on an array satisfying the storage
invariant, `set` succeeds and mutates only the byte range
`[byteRangeStart, byteRangeStop)` (which includes one headroom byte): every
byte before the range and every position from `byteRangeStop` on is
unchanged, and the storage length becomes `max(old length, byteRangeStop)` —
which exceeds the old length by one byte exactly when the range's end passes
the end of storage, as the counterexample shows. -/
theorem set_mutates_only_element_byte_range (a : PackedIntArray) (i v : Nat)
    (hB : IsBytes a.storage) (hv : v ≤ a.value_mask)
    (hinv : a.bitoffset + a.length * a.bitwidth ≤ 8 * a.storage.length)
    (hi : i < a.length) :
    ∃ b, a.set i v = some b ∧
      b.storage.length = max a.storage.length (byteRangeStop a i) ∧
      (∀ j, j < byteRangeStart a i → b.storage[j]? = a.storage[j]?) ∧
      (∀ j, byteRangeStop a i ≤ j → b.storage[j]? = a.storage[j]?) ∧
      b.bitwidth = a.bitwidth ∧ b.length = a.length ∧
      b.bitoffset = a.bitoffset ∧ b.endian = a.endian := by
  have hbw := bits_add_width_le a i hinv hi
  have hs : byteRangeStart a i ≤ a.storage.length := by
    unfold byteRangeStart
    omega
  have hse : byteRangeStart a i ≤ byteRangeStop a i := by
    unfold byteRangeStart byteRangeStop
    omega
  have hd : (toBytes a.endian (byteRangeStop a i - byteRangeStart a i) (setData a i v)).length =
      byteRangeStop a i - byteRangeStart a i := length_toBytes _ _ _
  refine ⟨setResult a i v, set_spec a i v hB hv, ?_, ?_, ?_, rfl, rfl, rfl, rfl⟩
  · simpa only [setResult] using
      length_splice a.storage _ (byteRangeStart a i) (byteRangeStop a i) hs hse hd
  · intro j hj
    simpa only [setResult] using
      splice_getElem?_left a.storage _ (byteRangeStart a i) (byteRangeStop a i) j hj hs
  · intro j hj
    simpa only [setResult] using
      splice_getElem?_right a.storage _ (byteRangeStart a i) (byteRangeStop a i) j hse hs hd hj

/-- C6 witness: the amended locality at a concrete input: setting element 1
of a 3-element 3-bit array over `[73, 0]` touches only bytes `[0, 2)`. -/
theorem set_mutates_only_element_byte_range_witness :
    ∃ b, (⟨3, [73, 0], 3, 0, Endian.little⟩ : PackedIntArray).set 1 5 = some b ∧
      b.storage.length = max ([73, 0] : List Nat).length
        (byteRangeStop ⟨3, [73, 0], 3, 0, Endian.little⟩ 1) ∧
      (∀ j, j < byteRangeStart ⟨3, [73, 0], 3, 0, Endian.little⟩ 1 →
        b.storage[j]? = ([73, 0] : List Nat)[j]?) ∧
      (∀ j, byteRangeStop ⟨3, [73, 0], 3, 0, Endian.little⟩ 1 ≤ j →
        b.storage[j]? = ([73, 0] : List Nat)[j]?) ∧
      b.bitwidth = 3 ∧ b.length = 3 ∧ b.bitoffset = 0 ∧ b.endian = Endian.little :=
  set_mutates_only_element_byte_range ⟨3, [73, 0], 3, 0, Endian.little⟩ 1 5 (by decide)
    (by decide) (by decide) (by decide)

/-- Sanity check mirroring the concrete scenario of the spec: bitwidth 3,
8 elements, little endian, values 0..7 written in order round-trip exactly,
and the byte pattern of the buffer is the literal regression fixture
`[136, 198, 250]` (with the boundary write having appended one zero byte). -/
theorem little_endian_fixture :
    ((pyInit 3 (StorageArg.intArg 8) none 0 "little").toOption.bind fun a =>
      (a.set 0 0).bind fun a => (a.set 1 1).bind fun a => (a.set 2 2).bind fun a =>
      (a.set 3 3).bind fun a => (a.set 4 4).bind fun a => (a.set 5 5).bind fun a =>
      (a.set 6 6).bind fun a => (a.set 7 7).map fun a =>
        ((List.range 8).map a.get, a.storage)) =
      some ([0, 1, 2, 3, 4, 5, 6, 7], [136, 198, 250, 0]) := by decide

end PackedInt
